import Mathlib

/-!
# Segmented download and reassembly (mp3_downloader)

A shallow embedding of the range planning loop of `main`, of `getFileSize`,
`downloadPart` and `mergeParts` as they appear in `src/cmd/main.go` and
`src/main.go`, followed by theorems about them.

* `int64` values are integers with every arithmetic result passed through
  `wrap64` (two's complement wrap-around modulo `2^64`).
* The file system is a map from file names to contents.
* Outcomes of I/O calls that the program cannot control (transport errors,
  failing `os.Create`, interrupted `io.Copy`, ...) are read from explicit
  oracle records.
-/

namespace Mp3Downloader

/-! ## 64-bit signed arithmetic -/

/-- Reduction of an integer to the `int64` value with the same residue modulo `2^64`. -/
def wrap64 (x : Int) : Int := (x + 2 ^ 63) % 2 ^ 64 - 2 ^ 63

/-- Go `a + b` on `int64`. -/
def add64 (a b : Int) : Int := wrap64 (a + b)

/-- Go `a - b` on `int64`. -/
def sub64 (a b : Int) : Int := wrap64 (a - b)

/-- Go `a * b` on `int64`. -/
def mul64 (a b : Int) : Int := wrap64 (a * b)

/-- Go `a / b` on `int64`: the quotient truncated toward zero. -/
def div64 (a b : Int) : Int := wrap64 (Int.tdiv a b)

/-! ## Range planning loop of `main` -/

/-- The constant `WORKERS` (`workers` in `src/main.go`). -/
def WORKERS : Nat := 8

/-- One launched `downloadPart` call: the byte range and the part file name. -/
structure Job where
  start : Int
  end_ : Int
  filename : String
  deriving DecidableEq, Repr

/-- Part file name, `fmt.Sprintf("part-%d.tmp", i)`. -/
def partFileName (i : Nat) : String := "part-" ++ toString i ++ ".tmp"

/-- Header value `fmt.Sprintf("bytes=%d-%d", start, end)`. -/
def rangeHeader (start end_ : Int) : String :=
  "bytes=" ++ toString start ++ "-" ++ toString end_

/-- Body of the planning loop for index `i`:
`start := int64(i) * chunk`, `end := start + chunk - 1`, and
`end = size - 1` when `i == WORKERS-1`. -/
def loopBody (size chunk : Int) (workers i : Nat) : Job :=
  let start := mul64 (wrap64 i) chunk
  let end_ := sub64 (add64 start chunk) 1
  let end_ := if (i : Int) = (workers : Int) - 1 then sub64 size 1 else end_
  { start := start, end_ := end_, filename := partFileName i }

/-- The loop `for i := 0; i < WORKERS; i++`, started at index `i` with `n`
iterations remaining; it yields the launched jobs in index order. -/
def mainLoop (size chunk : Int) (workers : Nat) : Nat → Nat → List Job
  | _, 0 => []
  | i, n + 1 => loopBody size chunk workers i :: mainLoop size chunk workers (i + 1) n

/-- Planning stage of `main`: `chunk := size / WORKERS` followed by the loop. -/
def mainPlan (size : Int) (workers : Nat) : List Job :=
  mainLoop size (div64 size workers) workers 0 workers

/-- The `(start, end)` pair of a job. -/
def Job.range (j : Job) : Int × Int := (j.start, j.end_)

/-! ## File system -/

/-- File contents. -/
abbrev Bytes := List UInt8

/-- A file system: each file name is mapped to its contents, or to `none` when no such
file exists. -/
abbrev FS := String → Option Bytes

/-- The file `name` exists afterwards with contents `data` (create, truncate or overwrite). -/
def fsWrite (fs : FS) (name : String) (data : Bytes) : FS :=
  fun n => if n = name then some data else fs n

/-- Effect of `os.Remove(name)`. -/
def fsRemove (fs : FS) (name : String) : FS :=
  fun n => if n = name then none else fs n

/-- Write through a handle opened by `os.Create(name)` and positioned at the end of the
file. Once the name has been unlinked the handle no longer reaches any named file. -/
def fsAppend (fs : FS) (name : String) (data : Bytes) : FS :=
  match fs name with
  | some old => fsWrite fs name (old ++ data)
  | none => fs

/-- The bytes of `b` at offsets `start .. end_`, both inclusive. -/
def slice (b : Bytes) (start end_ : Int) : Bytes :=
  (b.drop start.toNat).take (end_ - start + 1).toNat

/-! ## `getFileSize` -/

/-- What `getFileSize` reads from the answer to the HEAD request. -/
structure HeadResponse where
  /-- Field `res.StatusCode`. -/
  statusCode : Nat
  /-- Field `res.ContentLength`; `-1` when the length is unknown. -/
  contentLength : Int
  /-- Value of `resp.Header.Get("Content-Length")`; empty when the header is absent. -/
  contentLengthHeader : String

/-- The two error kinds of `strconv`. -/
inductive NumError
  | syn
  | range
  deriving DecidableEq, Repr

/-- Non-nil `error` values returned by `getFileSize`. -/
inductive SizeError
  | head
  | status (code : Nat)
  | invalidLength (size : Int)
  | parse (e : NumError)
  deriving DecidableEq, Repr

/-- Digit loop of `strconv.ParseUint(s, 10, 64)` with accumulator `n`. -/
def parseUintLoop : List Char → Nat → Nat × Option NumError
  | [], n => (n, none)
  | c :: cs, n =>
    if '0' ≤ c ∧ c ≤ '9' then
      if n ≥ (2 ^ 64 - 1) / 10 + 1 then (2 ^ 64 - 1, some NumError.range)
      else
        let n1 := n * 10 + (c.toNat - '0'.toNat)
        if n1 > 2 ^ 64 - 1 then (2 ^ 64 - 1, some NumError.range)
        else parseUintLoop cs n1
    else (0, some NumError.syn)

/-- Library function `strconv.ParseUint(s, 10, 64)`. -/
def parseUint (s : List Char) : Nat × Option NumError :=
  match s with
  | [] => (0, some NumError.syn)
  | _ => parseUintLoop s 0

/-- Library function `strconv.ParseInt(s, 10, 64)`. -/
def parseInt (s : String) : Int × Option NumError :=
  match s.data with
  | [] => (0, some NumError.syn)
  | c :: cs =>
    let neg := decide (c = '-')
    let digits := if c = '+' ∨ c = '-' then cs else c :: cs
    match parseUint digits with
    | (_, some NumError.syn) => (0, some NumError.syn)
    | (un, _) =>
      if !neg && decide (un ≥ 2 ^ 63) then (2 ^ 63 - 1, some NumError.range)
      else if neg && decide (un > 2 ^ 63) then (-2 ^ 63, some NumError.range)
      else (if neg then -(un : Int) else (un : Int), none)

namespace Cmd

/-- Function `getFileSize` of `src/cmd/main.go`; `head = none` stands for `http.Head`
returning an error. The result is the pair `(size, err)`. -/
def getFileSize (head : Option HeadResponse) : Int × Option SizeError :=
  match head with
  | none => (0, some SizeError.head)
  | some res =>
    if res.statusCode ≠ 200 then (0, some (SizeError.status res.statusCode))
    else
      let size := res.contentLength
      if size ≤ 0 then (0, some (SizeError.invalidLength size))
      else (size, none)

end Cmd

namespace Root

/-- Function `getFileSize` of `src/main.go`: the header value is handed to
`strconv.ParseInt` and its result is returned unchanged. -/
def getFileSize (head : Option HeadResponse) : Int × Option SizeError :=
  match head with
  | none => (0, some SizeError.head)
  | some resp =>
    let sizeStr := resp.contentLengthHeader
    ((parseInt sizeStr).1, (parseInt sizeStr).2.map SizeError.parse)

end Root

/-! ## `downloadPart` -/

/-- An HTTP request as built by `downloadPart`. -/
structure Request where
  method : String
  url : String
  /-- Value of the `Range` header. -/
  range : String
  deriving DecidableEq, Repr

/-- An HTTP response: status code and body. -/
structure Response where
  statusCode : Nat
  body : Bytes
  deriving DecidableEq, Repr

/-- Outcomes of the I/O calls made by one `downloadPart` call. -/
structure PartEnv where
  /-- Call `http.NewRequest` returns an error. -/
  newRequestErr : Bool
  /-- Call `http.DefaultClient.Do`: the response, or `none` for an error. -/
  roundTrip : Request → Option Response
  /-- Call `os.Create(filename)` returns an error. -/
  createErr : Bool
  /-- Call `io.Copy`: `some n` when it fails after writing `n` bytes. -/
  copyErr : Option Nat

/-- Lines printed by `downloadPart`. -/
inductive Msg
  | errorCreatingRequest
  | errorDownloadingPart
  | errorCreatingPartFile
  | errorWritingToPartFile
  | downloadedPart (filename : String)
  deriving DecidableEq, Repr

namespace Cmd

/-- Function `downloadPart` of `src/cmd/main.go`: the resulting file system and the lines
printed. -/
def downloadPart (env : PartEnv) (url : String) (start end_ : Int) (filename : String)
    (fs : FS) : FS × List Msg :=
  if env.newRequestErr then (fs, [Msg.errorCreatingRequest])
  else
    let req : Request :=
      { method := "GET", url := url, range := rangeHeader start end_ }
    match env.roundTrip req with
    | none => (fs, [Msg.errorDownloadingPart])
    | some res =>
      if env.createErr then (fs, [Msg.errorCreatingPartFile])
      else
        let fs1 := fsWrite fs filename []
        match env.copyErr with
        | some n => (fsAppend fs1 filename (res.body.take n), [Msg.errorWritingToPartFile])
        | none => (fsAppend fs1 filename res.body, [Msg.downloadedPart filename])

end Cmd

/-! ## `mergeParts` -/

/-- Outcomes of the I/O calls made by `mergeParts`; part-specific ones are indexed by the
position of the part in the list. -/
structure MergeEnv where
  /-- Call `os.Create(output)` returns an error. -/
  createErr : Bool
  /-- Call `os.Open` of part `k` fails although the file exists. -/
  openErr : Nat → Bool
  /-- Call `io.Copy` of part `k`: `some n` when it fails after writing `n` bytes. -/
  copyErr : Nat → Option Nat
  /-- Call `os.Remove` of part `k` fails (the code ignores its result). -/
  removeErr : Nat → Bool

/-- Non-nil `error` values returned by `mergeParts`. -/
inductive MergeError
  | create
  | open_ (k : Nat)
  | copy (k : Nat)
  deriving DecidableEq, Repr

/-- How a `mergeParts` call ends. -/
inductive MergeOutcome
  /-- Returned `nil`. -/
  | ok
  /-- Returned a non-nil error. -/
  | failed (e : MergeError)
  /-- A part is the non-empty output file itself: the copy reads what it appends, which a
  single map update cannot express. -/
  | selfCopy
  deriving DecidableEq, Repr

/-- The loop `for _, pf := range parts` of `mergeParts`, at list position `k`. -/
def mergeLoop (env : MergeEnv) (output : String) : Nat → List String → FS → FS × MergeOutcome
  | _, [], fs => (fs, MergeOutcome.ok)
  | k, pf :: rest, fs =>
    match fs pf with
    | none => (fs, MergeOutcome.failed (MergeError.open_ k))
    | some content =>
      if env.openErr k then (fs, MergeOutcome.failed (MergeError.open_ k))
      else if pf = output ∧ content ≠ [] then (fs, MergeOutcome.selfCopy)
      else
        match env.copyErr k with
        | some n => (fsAppend fs output (content.take n), MergeOutcome.failed (MergeError.copy k))
        | none =>
          let fs1 := fsAppend fs output content
          let fs2 := if env.removeErr k then fs1 else fsRemove fs1 pf
          mergeLoop env output (k + 1) rest fs2

/-- Function `mergeParts` (identical in `src/cmd/main.go` and `src/main.go`). -/
def mergeParts (env : MergeEnv) (output : String) (parts : List String) (fs : FS) :
    FS × MergeOutcome :=
  if env.createErr then (fs, MergeOutcome.failed MergeError.create)
  else mergeLoop env output 0 parts (fsWrite fs output [])

/-! ## Download-and-merge stage of `main` -/

namespace Cmd

/-- The eight `downloadPart` calls up to `wg.Wait()`. Each call touches only its own part
file, so the calls are composed in index order; `k` is the index of the first job. -/
def downloadAll (env : Nat → PartEnv) (url : String) : Nat → List Job → FS → FS
  | _, [], fs => fs
  | k, j :: rest, fs =>
    downloadAll env url (k + 1) rest (downloadPart (env k) url j.start j.end_ j.filename fs).1

/-- Steps 2 and 3 of `main` in `src/cmd/main.go` after `getFileSize`: plan, download all
parts, wait, merge into `title + ".webm"`. -/
def mainStage (penv : Nat → PartEnv) (menv : MergeEnv) (audioURL title : String) (size : Int)
    (fs : FS) : FS × MergeOutcome :=
  let outputWebm := title ++ ".webm"
  let jobs := mainPlan size WORKERS
  let partFiles := jobs.map Job.filename
  mergeParts menv outputWebm partFiles (downloadAll penv audioURL 0 jobs fs)

end Cmd

/-! ## Concrete environments used in examples -/

/-- A merge in which no I/O call fails. -/
def noMergeFaults : MergeEnv :=
  { createErr := false, openErr := fun _ => false, copyErr := fun _ => none,
    removeErr := fun _ => false }

/-- Two part files holding `[1, 2]` and `[3]`. -/
def twoPartsFS : FS := fun n =>
  if n = "part-0.tmp" then some [1, 2] else if n = "part-1.tmp" then some [3] else none

/-- Only `part-1.tmp` exists, holding the single byte 7. -/
def onlySecondPartFS : FS := fun n => if n = "part-1.tmp" then some [7] else none

/-- The empty file system. -/
def emptyFS : FS := fun _ => none

/-- A nine-byte buffer. -/
def nineBytes : Bytes := [10, 11, 12, 13, 14, 15, 16, 17, 18]

/-- A range-capable server for the buffer `b`: a request whose Range header is that of a
planned range is answered with status 206 and exactly that slice of `b`. -/
def rangeServer (b : Bytes) : Request → Option Response := fun req =>
  ((mainPlan b.length WORKERS).find? (fun j => rangeHeader j.start j.end_ == req.range)).map
    (fun j => { statusCode := 206, body := slice b j.start j.end_ })

/-- A `downloadPart` call without faults against `rangeServer b`. -/
def okPart (b : Bytes) : PartEnv :=
  { newRequestErr := false, roundTrip := rangeServer b, createErr := false, copyErr := none }

/-- All calls succeed except the one of index 3, whose request ends in a transport error. -/
def transportErrorAt3 (b : Bytes) : Nat → PartEnv := fun i =>
  if i = 3 then { okPart b with roundTrip := fun _ => none } else okPart b

/-- All calls succeed except the one of index 3, whose copy fails before the first byte. -/
def copyErrorAt3 (b : Bytes) : Nat → PartEnv := fun i =>
  if i = 3 then { okPart b with copyErr := some 0 } else okPart b

/-- A `downloadPart` call without faults whose request is answered by `res`. -/
def respondWith (res : Response) : PartEnv :=
  { newRequestErr := false, roundTrip := fun _ => some res, createErr := false, copyErr := none }

/-! ## Arithmetic lemmas -/

theorem wrap64_eq_self {x : Int} (h1 : -2 ^ 63 ≤ x) (h2 : x < 2 ^ 63) : wrap64 x = x := by
  unfold wrap64; omega

theorem tdiv_eq_ediv_of_nonneg {a b : Int} (ha : 0 ≤ a) (hb : 0 ≤ b) : Int.tdiv a b = a / b :=
  Int.tdiv_eq_ediv ha hb

/-- Index times quotient stays below the dividend. -/
theorem mul_quot_le {size w i : Int} (hs : 0 ≤ size) (hw : 0 < w) (hi : i < w) :
    i * (size / w) + size / w ≤ size := by
  have hc : 0 ≤ size / w := Int.ediv_nonneg hs (le_of_lt hw)
  have h1 : size / w * w ≤ size := Int.ediv_mul_le size (ne_of_gt hw)
  have h2 : (i + 1) * (size / w) ≤ w * (size / w) :=
    mul_le_mul_of_nonneg_right (by omega) hc
  nlinarith

theorem div64_eq {size : Int} {workers : Nat} (hs : 0 ≤ size) (hmax : size < 2 ^ 63) :
    div64 size workers = size / workers := by
  unfold div64
  rw [tdiv_eq_ediv_of_nonneg hs (Int.ofNat_nonneg _)]
  have h0 : 0 ≤ size / (workers : Int) := Int.ediv_nonneg hs (Int.ofNat_nonneg _)
  have h1 : size / (workers : Int) ≤ size := Int.ediv_le_self _ hs
  exact wrap64_eq_self (by omega) (by omega)

/-! ## The planning loop as an indexed list -/

theorem mainLoop_length (size chunk : Int) (workers i n : Nat) :
    (mainLoop size chunk workers i n).length = n := by
  induction n generalizing i with
  | zero => rfl
  | succ n ih => simp [mainLoop, ih]

theorem mainLoop_getElem? (size chunk : Int) (workers i n k : Nat) :
    (mainLoop size chunk workers i n)[k]? =
      if k < n then some (loopBody size chunk workers (i + k)) else none := by
  induction n generalizing i k with
  | zero => simp [mainLoop]
  | succ n ih =>
    cases k with
    | zero => simp [mainLoop]
    | succ k =>
      simp only [mainLoop, List.getElem?_cons_succ, ih, Nat.add_lt_add_iff_right]
      have : i + 1 + k = i + (k + 1) := by omega
      rw [this]

theorem mainPlan_length (size : Int) (workers : Nat) : (mainPlan size workers).length = workers :=
  mainLoop_length _ _ _ _ _

theorem mainPlan_getElem? (size : Int) (workers k : Nat) :
    (mainPlan size workers)[k]? =
      if k < workers then some (loopBody size (div64 size workers) workers k) else none := by
  unfold mainPlan
  rw [mainLoop_getElem?, Nat.zero_add]

/-- Without overflow the loop body computes the exact integer values. -/
theorem loopBody_exact {size : Int} {workers i : Nat} (hs : 0 < size) (hmax : size < 2 ^ 63)
    (hi : i < workers) :
    loopBody size (div64 size workers) workers i =
      { start := i * (size / workers)
        end_ := if i + 1 = workers then size - 1 else i * (size / workers) + size / workers - 1
        filename := partFileName i } := by
  have hw : (0 : Int) < workers := by omega
  have hiw : (i : Int) < workers := by omega
  have hc0 : 0 ≤ size / (workers : Int) := Int.ediv_nonneg (le_of_lt hs) (le_of_lt hw)
  have hle := mul_quot_le (le_of_lt hs) hw hiw
  have hi0 : 0 ≤ (i : Int) * (size / workers) := mul_nonneg (Int.ofNat_nonneg _) hc0
  have hstart : mul64 (wrap64 i) (size / workers) = i * (size / workers) := by
    unfold mul64
    by_cases hc : size / (workers : Int) = 0
    · rw [hc]; simp [wrap64]
    · have hc1 : 1 ≤ size / (workers : Int) := by omega
      have hws : (workers : Int) ≤ size := by
        by_contra hlt
        exact hc (Int.ediv_eq_zero_of_lt (le_of_lt hs) (by omega))
      rw [wrap64_eq_self (x := (i : Int)) (by omega) (by omega)]
      exact wrap64_eq_self (by omega) (by omega)
  have hadd : add64 (i * (size / workers)) (size / workers)
      = i * (size / workers) + size / workers := wrap64_eq_self (by omega) (by omega)
  have hsub : sub64 (i * (size / workers) + size / workers) 1
      = i * (size / workers) + size / workers - 1 := wrap64_eq_self (by omega) (by omega)
  have hlast : sub64 size 1 = size - 1 := wrap64_eq_self (by omega) (by omega)
  have hcond : ((i : Int) = (workers : Int) - 1) ↔ (i + 1 = workers) := by omega
  simp only [loopBody, div64_eq (le_of_lt hs) hmax, hstart, hadd, hsub, hlast, hcond]

/-- Every planned job, with exact arithmetic. -/
theorem mainPlan_exact {size : Int} {workers : Nat} (hs : 0 < size) (hmax : size < 2 ^ 63)
    (k : Nat) :
    (mainPlan size workers)[k]? =
      if k < workers then
        some { start := k * (size / workers)
               end_ := if k + 1 = workers then size - 1
                       else k * (size / workers) + size / workers - 1
               filename := partFileName k }
      else none := by
  rw [mainPlan_getElem?]
  split
  · next h => rw [loopBody_exact hs hmax h]
  · rfl

/-- Reading a planned job back: its index is in range and its fields are exact. -/
theorem mainPlan_some {size : Int} {workers : Nat} (hs : 0 < size) (hmax : size < 2 ^ 63)
    {k : Nat} {r : Job} (h : (mainPlan size workers)[k]? = some r) :
    k < workers ∧ r.start = k * (size / workers) ∧
      r.end_ = (if k + 1 = workers then size - 1
                else k * (size / workers) + size / workers - 1) ∧
      r.filename = partFileName k := by
  rw [mainPlan_exact hs hmax] at h
  split at h
  · next hk =>
    simp only [Option.some.injEq] at h
    subst h
    exact ⟨hk, rfl, rfl, rfl⟩
  · simp at h

/-- C1. For every positive `int64` size and every worker count `workers ≥ 1` (in particular
the fixed count 8), the ranges computed by the planning loop of `main` are contiguous,
non-overlapping, ordered and cover exactly `[0, size)`: there are `workers` of them, the first
starts at 0, each next one starts right after the previous end, starts are non-decreasing,
an earlier range ends before a later one starts, the last one ends at `size - 1`, and an
offset lies in some range exactly when it lies in `0 .. size - 1`. -/
theorem C1_plan_partitions (size : Int) (workers : Nat) (hs : 0 < size) (hmax : size < 2 ^ 63)
    (hw : 1 ≤ workers) :
    (mainPlan size workers).length = workers ∧
    (∃ r, (mainPlan size workers)[0]? = some r ∧ r.start = 0) ∧
    (∀ (i : Nat) (r s : Job), (mainPlan size workers)[i]? = some r → (mainPlan size workers)[i + 1]? = some s →
      s.start = r.end_ + 1) ∧
    (∀ (i j : Nat) (r s : Job), i ≤ j → (mainPlan size workers)[i]? = some r →
      (mainPlan size workers)[j]? = some s → r.start ≤ s.start) ∧
    (∀ (i j : Nat) (r s : Job), i < j → (mainPlan size workers)[i]? = some r →
      (mainPlan size workers)[j]? = some s → r.end_ < s.start) ∧
    (∃ r, (mainPlan size workers)[workers - 1]? = some r ∧ r.end_ = size - 1) ∧
    (∀ x : Int, (∃ r ∈ mainPlan size workers, r.start ≤ x ∧ x ≤ r.end_) ↔ (0 ≤ x ∧ x < size)) := by
  have hwpos : (0 : Int) < workers := by omega
  have hc0 : 0 ≤ size / (workers : Int) := Int.ediv_nonneg (le_of_lt hs) (le_of_lt hwpos)
  have hmono : ∀ i j : Nat, i ≤ j →
      (i : Int) * (size / workers) ≤ (j : Int) * (size / workers) := fun i j hij =>
    mul_le_mul_of_nonneg_right (by omega) hc0
  refine ⟨mainPlan_length _ _, ?_, ?_, ?_, ?_, ?_, ?_⟩
  · refine ⟨_, by rw [mainPlan_exact hs hmax, if_pos (by omega)], by simp⟩
  · intro i r s hr hs2
    obtain ⟨_, _, hre, _⟩ := mainPlan_some hs hmax hr
    obtain ⟨hi, hss, _, _⟩ := mainPlan_some hs hmax hs2
    rw [hss, hre, if_neg (by omega)]
    push_cast
    ring
  · intro i j r s hij hr hs2
    obtain ⟨_, hrs, _, _⟩ := mainPlan_some hs hmax hr
    obtain ⟨_, hss, _, _⟩ := mainPlan_some hs hmax hs2
    rw [hrs, hss]
    exact hmono i j hij
  · intro i j r s hij hr hs2
    obtain ⟨_, _, hre, _⟩ := mainPlan_some hs hmax hr
    obtain ⟨hj, hss, _, _⟩ := mainPlan_some hs hmax hs2
    rw [hre, hss, if_neg (by omega)]
    have := hmono (i + 1) j hij
    push_cast at this
    linarith
  · refine ⟨_, by rw [mainPlan_exact hs hmax, if_pos (by omega)], ?_⟩
    simp only [Nat.sub_add_cancel hw, if_true]
  · intro x
    constructor
    · rintro ⟨r, hr, hx1, hx2⟩
      obtain ⟨k, hk⟩ := List.getElem?_of_mem hr
      obtain ⟨hkw, hrs, hre, _⟩ := mainPlan_some hs hmax hk
      have hk0 : 0 ≤ (k : Int) * (size / workers) := mul_nonneg (Int.ofNat_nonneg _) hc0
      have hle := mul_quot_le (i := (k : Int)) (le_of_lt hs) hwpos (by omega)
      rw [hrs] at hx1
      rw [hre] at hx2
      split at hx2 <;> constructor <;> omega
    · rintro ⟨hx0, hxs⟩
      by_cases hlast : ((workers - 1 : Nat) : Int) * (size / workers) ≤ x
      · have hget := @mainPlan_exact size workers hs hmax (workers - 1)
        rw [if_pos (by omega)] at hget
        refine ⟨_, List.getElem?_mem hget, ?_⟩
        simp only [Nat.sub_add_cancel hw, if_true]
        exact ⟨hlast, by omega⟩
      · have hlt : x < ((workers - 1 : Nat) : Int) * (size / workers) := by omega
        have hcpos : 0 < size / (workers : Int) := by
          rcases lt_or_eq_of_le hc0 with h | h
          · exact h
          · rw [← h] at hlt; omega
        have hq0 : 0 ≤ x / (size / (workers : Int)) := Int.ediv_nonneg hx0 hc0
        have hq1 : x / (size / (workers : Int)) < ((workers - 1 : Nat) : Int) :=
          Int.ediv_lt_of_lt_mul hcpos hlt
        have hlo : x / (size / (workers : Int)) * (size / workers) ≤ x :=
          Int.ediv_mul_le x (ne_of_gt hcpos)
        have hhi : x < (x / (size / (workers : Int)) + 1) * (size / workers) :=
          Int.lt_ediv_add_one_mul_self x hcpos
        obtain ⟨k, hk⟩ := Int.eq_ofNat_of_zero_le hq0
        rw [hk] at hq1 hlo hhi
        have hkw : k + 1 < workers := by omega
        have hget := @mainPlan_exact size workers hs hmax k
        rw [if_pos (by omega)] at hget
        refine ⟨_, List.getElem?_mem hget, ?_⟩
        simp only [if_neg (Nat.ne_of_lt hkw)]
        constructor
        · exact hlo
        · have : ((k : Int) + 1) * (size / workers)
              = k * (size / workers) + size / workers := by ring
          omega

/-- Witness of C1 at `size = 1003` with the fixed worker count. -/
theorem C1_plan_partitions_witness :
    (mainPlan 1003 WORKERS).length = WORKERS ∧
    (∃ r, (mainPlan 1003 WORKERS)[0]? = some r ∧ r.start = 0) ∧
    (∀ (i : Nat) (r s : Job), (mainPlan 1003 WORKERS)[i]? = some r → (mainPlan 1003 WORKERS)[i + 1]? = some s →
      s.start = r.end_ + 1) ∧
    (∀ (i j : Nat) (r s : Job), i ≤ j → (mainPlan 1003 WORKERS)[i]? = some r →
      (mainPlan 1003 WORKERS)[j]? = some s → r.start ≤ s.start) ∧
    (∀ (i j : Nat) (r s : Job), i < j → (mainPlan 1003 WORKERS)[i]? = some r →
      (mainPlan 1003 WORKERS)[j]? = some s → r.end_ < s.start) ∧
    (∃ r, (mainPlan 1003 WORKERS)[WORKERS - 1]? = some r ∧ r.end_ = 1003 - 1) ∧
    (∀ x : Int, (∃ r ∈ mainPlan 1003 WORKERS, r.start ≤ x ∧ x ≤ r.end_) ↔ (0 ≤ x ∧ x < 1003)) :=
  C1_plan_partitions 1003 WORKERS (by decide) (by decide) (by decide)

/-- C2. For every positive `int64` size and every `workers ≥ 1` (in particular 8), every range
of the planning loop except the last has length `end - start + 1 = size / workers`, and the
last has length `size - (workers - 1) * (size / workers)`. For `size = 1000` the eight ranges
are `[0-124] ... [875-999]`; for `size = 1003` the last range is `[875-1002]` (128 bytes)
while the seven before it have 125 bytes each. -/
theorem C2_plan_lengths (size : Int) (workers : Nat) (hs : 0 < size) (hmax : size < 2 ^ 63)
    (hw : 1 ≤ workers) :
    (mainPlan size workers).length = workers ∧
    (∀ (i : Nat) (r : Job), i + 1 < workers → (mainPlan size workers)[i]? = some r →
      r.end_ - r.start + 1 = size / workers) ∧
    (∃ r, (mainPlan size workers)[workers - 1]? = some r ∧
      r.end_ - r.start + 1 = size - ((workers : Int) - 1) * (size / workers)) ∧
    (mainPlan 1000 WORKERS).map Job.range =
      [(0, 124), (125, 249), (250, 374), (375, 499), (500, 624), (625, 749), (750, 874),
        (875, 999)] ∧
    (mainPlan 1003 WORKERS).map Job.range =
      [(0, 124), (125, 249), (250, 374), (375, 499), (500, 624), (625, 749), (750, 874),
        (875, 1002)] ∧
    ((mainPlan 1003 WORKERS).map fun r => r.end_ - r.start + 1) =
      [125, 125, 125, 125, 125, 125, 125, 128] := by
  refine ⟨mainPlan_length _ _, ?_, ?_, by decide, by decide, by decide⟩
  · intro i r hi hr
    obtain ⟨_, hrs, hre, _⟩ := mainPlan_some hs hmax hr
    rw [hrs, hre, if_neg (by omega)]
    ring
  · have hget := @mainPlan_exact size workers hs hmax (workers - 1)
    rw [if_pos (by omega)] at hget
    refine ⟨_, hget, ?_⟩
    simp only [Nat.sub_add_cancel hw, if_true]
    push_cast [Nat.cast_sub hw]
    ring

/-- Witness of C2 at `size = 1003` with the fixed worker count. -/
theorem C2_plan_lengths_witness :
    (∀ (i : Nat) (r : Job), i + 1 < WORKERS → (mainPlan 1003 WORKERS)[i]? = some r →
      r.end_ - r.start + 1 = 1003 / (WORKERS : Int)) ∧
    (∃ r, (mainPlan 1003 WORKERS)[WORKERS - 1]? = some r ∧
      r.end_ - r.start + 1 = 1003 - ((WORKERS : Int) - 1) * (1003 / (WORKERS : Int))) :=
  ⟨(C2_plan_lengths 1003 WORKERS (by decide) (by decide) (by decide)).2.1,
   (C2_plan_lengths 1003 WORKERS (by decide) (by decide) (by decide)).2.2.1⟩

/-- Truncated division by 8 through floor division. -/
theorem tdiv_eight (a : Int) : Int.tdiv a 8 = if 0 ≤ a then a / 8 else -((-a) / 8) := by
  split
  · next h => exact Int.tdiv_eq_ediv h (by decide)
  · next h =>
    have : a = -(-a) := by omega
    rw [this, Int.neg_tdiv, Int.tdiv_eq_ediv (by omega) (by decide)]
    simp

/-- The first planned range for the fixed worker count, with the wrap-around spelled out. -/
theorem mainPlan_head (size : Int) :
    (mainPlan size WORKERS)[0]? =
      some { start := 0, end_ := wrap64 (wrap64 (wrap64 (Int.tdiv size 8)) - 1),
             filename := partFileName 0 } := by
  rw [mainPlan_getElem?, if_pos (by decide)]
  simp [loopBody, WORKERS, mul64, add64, sub64, div64, wrap64]

/-- C9. With the fixed worker count 8, every range computed by the planning loop is a valid
non-empty inclusive interval `0 ≤ start ≤ end ≤ size - 1` if and only if `size ≥ 8`. For
`1 ≤ size ≤ 7` the chunk is 0, the ranges of indices 0..6 are all `(0, -1)`, for which the
Range header is `bytes=0--1`, and index 7 gets `(0, size - 1)`. -/
theorem C9_valid_iff_size_ge_eight (size : Int) (hmin : -2 ^ 63 ≤ size) (hmax : size < 2 ^ 63) :
    ((∀ r ∈ mainPlan size WORKERS, 0 ≤ r.start ∧ r.start ≤ r.end_ ∧ r.end_ ≤ size - 1)
      ↔ 8 ≤ size) ∧
    (1 ≤ size → size ≤ 7 →
      div64 size WORKERS = 0 ∧
      (mainPlan size WORKERS).map Job.range =
        [(0, -1), (0, -1), (0, -1), (0, -1), (0, -1), (0, -1), (0, -1), (0, size - 1)] ∧
      ((mainPlan size WORKERS).take 7).map (fun r => rangeHeader r.start r.end_) =
        List.replicate 7 "bytes=0--1") := by
  constructor
  · constructor
    · intro h
      have hmem := List.getElem?_mem (mainPlan_head size)
      obtain ⟨_, h2, _⟩ := h _ hmem
      simp only at h2
      rw [tdiv_eight] at h2
      unfold wrap64 at h2
      split at h2 <;> omega
    · intro h8 r hr
      have hs : 0 < size := by omega
      obtain ⟨k, hk⟩ := List.getElem?_of_mem hr
      obtain ⟨hkw, hrs, hre, _⟩ := mainPlan_some hs hmax hk
      have hk8 : k < 8 := hkw
      have hcast : ((WORKERS : Nat) : Int) = 8 := rfl
      have hle := mul_quot_le (i := (k : Int)) (le_of_lt hs) (w := 8) (by decide) (by omega)
      have hk0 : 0 ≤ (k : Int) * (size / 8) :=
        mul_nonneg (Int.ofNat_nonneg _) (Int.ediv_nonneg (le_of_lt hs) (by decide))
      rw [hcast] at hrs hre
      rw [hrs, hre]
      by_cases hk : k + 1 = WORKERS
      · rw [if_pos hk]
        refine ⟨?_, ?_, ?_⟩ <;> omega
      · rw [if_neg hk]
        refine ⟨?_, ?_, ?_⟩ <;> omega
  · intro h1 h7
    have hs : 0 < size := by omega
    have hc : div64 size WORKERS = 0 := by
      rw [div64_eq (le_of_lt hs) hmax]
      have hcast : ((WORKERS : Nat) : Int) = 8 := rfl
      rw [hcast]; omega
    have hlast : sub64 size 1 = size - 1 := wrap64_eq_self (by omega) (by omega)
    have hz : wrap64 0 = 0 := by decide
    have hm1 : wrap64 (0 - 1) = -1 := by decide
    refine ⟨hc, ?_, ?_⟩
    · simp only [mainPlan, hc, mainLoop, loopBody, List.map, Job.range, mul64, add64,
        mul_zero, add_zero, hz, sub64, hm1]
      simp [WORKERS]
      exact hlast
    · simp only [mainPlan, hc, mainLoop, loopBody, List.map, List.take, mul64, add64,
        mul_zero, add_zero, hz, sub64, hm1]
      simp [WORKERS]
      decide

/-- Witness of C9 at `size = 5`. -/
theorem C9_valid_iff_size_ge_eight_witness :
    ¬ (∀ r ∈ mainPlan 5 WORKERS, 0 ≤ r.start ∧ r.start ≤ r.end_ ∧ r.end_ ≤ 5 - 1) ∧
    (mainPlan 5 WORKERS).map Job.range =
      [(0, -1), (0, -1), (0, -1), (0, -1), (0, -1), (0, -1), (0, -1), (0, 5 - 1)] :=
  ⟨fun h => absurd ((C9_valid_iff_size_ge_eight 5 (by decide) (by decide)).1.1 h) (by decide),
   ((C9_valid_iff_size_ge_eight 5 (by decide) (by decide)).2 (by decide) (by decide)).2.1⟩

/-- C10. The range arithmetic never overflows `int64`: for every size with
`1 ≤ size ≤ 2^63 - 1` and every index `i < 8`, the wrapped values of `size / 8`,
`int64(i) * chunk`, `start + chunk - 1` and `size - 1` equal their exact integer values, and
the range planned for index `i` has its start in `[0, size - 1]` and its end in
`[-1, size - 1]`. -/
theorem C10_no_overflow (size : Int) (i : Nat) (h1 : 1 ≤ size) (hmax : size ≤ 2 ^ 63 - 1)
    (hi : i < 8) :
    div64 size WORKERS = size / 8 ∧
    mul64 (wrap64 i) (div64 size WORKERS) = i * (size / 8) ∧
    sub64 (add64 (mul64 (wrap64 i) (div64 size WORKERS)) (div64 size WORKERS)) 1
      = i * (size / 8) + size / 8 - 1 ∧
    sub64 size 1 = size - 1 ∧
    (∃ r, (mainPlan size WORKERS)[i]? = some r ∧
      r = loopBody size (div64 size WORKERS) WORKERS i ∧
      0 ≤ r.start ∧ r.start ≤ size - 1 ∧ -1 ≤ r.end_ ∧ r.end_ ≤ size - 1) := by
  have hs : 0 < size := by omega
  have hm : size < 2 ^ 63 := by omega
  have hcast : ((WORKERS : Nat) : Int) = 8 := rfl
  have hc : div64 size WORKERS = size / 8 := by rw [div64_eq (le_of_lt hs) hm, hcast]
  have hwi : wrap64 (i : Int) = i := wrap64_eq_self (by omega) (by omega)
  have hle := mul_quot_le (i := (i : Int)) (le_of_lt hs) (w := 8) (by decide) (by omega)
  have hi0 : 0 ≤ (i : Int) * (size / 8) :=
    mul_nonneg (Int.ofNat_nonneg _) (Int.ediv_nonneg (le_of_lt hs) (by decide))
  have hi7 : (i : Int) * (size / 8) ≤ 7 * (size / 8) :=
    mul_le_mul_of_nonneg_right (by omega) (Int.ediv_nonneg (le_of_lt hs) (by decide))
  have hmul : mul64 (wrap64 i) (size / 8) = i * (size / 8) := by
    rw [hwi]; exact wrap64_eq_self (by omega) (by omega)
  have hadd : add64 (i * (size / 8)) (size / 8) = i * (size / 8) + size / 8 :=
    wrap64_eq_self (by omega) (by omega)
  have hsub : sub64 (i * (size / 8) + size / 8) 1 = i * (size / 8) + size / 8 - 1 :=
    wrap64_eq_self (by omega) (by omega)
  have hlast : sub64 size 1 = size - 1 := wrap64_eq_self (by omega) (by omega)
  refine ⟨hc, by rw [hc, hmul], by rw [hc, hmul, hadd, hsub], hlast, ?_⟩
  refine ⟨_, by rw [mainPlan_getElem?, if_pos (show i < WORKERS from hi)], rfl, ?_⟩
  rw [@loopBody_exact size WORKERS i hs hm hi, hcast]
  simp only
  by_cases hk : i + 1 = WORKERS
  · rw [if_pos hk]
    refine ⟨?_, ?_, ?_, ?_⟩ <;> omega
  · rw [if_neg hk]
    refine ⟨?_, ?_, ?_, ?_⟩ <;> omega

/-- Witness of C10 at the largest `int64` size and the last index. -/
theorem C10_no_overflow_witness :
    mul64 (wrap64 (7 : Nat)) (div64 (2 ^ 63 - 1) WORKERS) = (7 : Nat) * ((2 ^ 63 - 1) / 8) ∧
    sub64 (2 ^ 63 - 1) 1 = 2 ^ 63 - 1 - 1 :=
  ⟨(C10_no_overflow (2 ^ 63 - 1) 7 (by decide) (by decide) (by decide)).2.1,
   (C10_no_overflow (2 ^ 63 - 1) 7 (by decide) (by decide) (by decide)).2.2.2.1⟩

/-! ## File system lemmas -/

theorem fsWrite_same (fs : FS) (name : String) (data : Bytes) :
    fsWrite fs name data name = some data := by
  simp [fsWrite]

theorem fsWrite_other (fs : FS) {name n : String} (data : Bytes) (h : n ≠ name) :
    fsWrite fs name data n = fs n := by
  simp [fsWrite, h]

theorem fsRemove_same (fs : FS) (name : String) : fsRemove fs name name = none := by
  simp [fsRemove]

theorem fsRemove_other (fs : FS) {name n : String} (h : n ≠ name) :
    fsRemove fs name n = fs n := by
  simp [fsRemove, h]

theorem fsAppend_other (fs : FS) {name n : String} (data : Bytes) (h : n ≠ name) :
    fsAppend fs name data n = fs n := by
  unfold fsAppend
  cases hold : fs name with
  | none => rfl
  | some old => exact fsWrite_other fs _ h

theorem fsAppend_same (fs : FS) {name : String} {old : Bytes} (data : Bytes)
    (h : fs name = some old) : fsAppend fs name data name = some (old ++ data) := by
  unfold fsAppend
  rw [h]
  exact fsWrite_same _ _ _

/-- Appending through a handle neither creates nor removes a name. -/
theorem fsAppend_eq_none_iff (fs : FS) (name n : String) (data : Bytes) :
    fsAppend fs name data n = none ↔ fs n = none := by
  unfold fsAppend
  cases hold : fs name with
  | none => rfl
  | some old =>
    by_cases hn : n = name
    · subst hn; simp [fsWrite, hold]
    · simp [fsWrite, hn]

/-! ## `mergeParts`: the successful run -/

/-- Loop invariant of a fault-free merge: the output grows by the parts in list order, every
merged part is removed, nothing else changes. -/
theorem mergeLoop_ok (env : MergeEnv) (output : String)
    (hopen : ∀ j, env.openErr j = false) (hcopy : ∀ j, env.copyErr j = none)
    (hremove : ∀ j, env.removeErr j = false) :
    ∀ (parts : List String) (contents : List Bytes) (k : Nat) (fs : FS) (acc : Bytes),
      fs output = some acc → parts.Nodup → output ∉ parts →
      parts.map fs = contents.map some →
      (mergeLoop env output k parts fs).2 = MergeOutcome.ok ∧
      (mergeLoop env output k parts fs).1 output = some (acc ++ contents.flatten) ∧
      (∀ p ∈ parts, (mergeLoop env output k parts fs).1 p = none) ∧
      (∀ n, n ∉ parts → n ≠ output → (mergeLoop env output k parts fs).1 n = fs n) := by
  intro parts
  induction parts with
  | nil =>
    intro contents k fs acc hacc _ _ hmap
    cases contents with
    | nil => simp [mergeLoop, hacc]
    | cons c cs => simp at hmap
  | cons pf rest ih =>
    intro contents k fs acc hacc hnd hout hmap
    cases contents with
    | nil => simp at hmap
    | cons c cs =>
      simp only [List.map_cons, List.cons.injEq] at hmap
      obtain ⟨hpf, hrest⟩ := hmap
      have hne : pf ≠ output := fun h => hout (h ▸ List.mem_cons_self _ _)
      have hout2 : output ∉ rest := fun h => hout (List.mem_cons_of_mem _ h)
      obtain ⟨hpfrest, hnd2⟩ := List.nodup_cons.mp hnd
      have hfs2 : ∀ n, n ≠ pf → n ≠ output →
          fsRemove (fsAppend fs output c) pf n = fs n := fun n h1 h2 => by
        rw [fsRemove_other _ h1, fsAppend_other _ _ h2]
      have hacc2 : fsRemove (fsAppend fs output c) pf output = some (acc ++ c) := by
        rw [fsRemove_other _ (Ne.symm hne), fsAppend_same _ _ hacc]
      have hmap2 : rest.map (fsRemove (fsAppend fs output c) pf) = cs.map some := by
        rw [← hrest]
        apply List.map_congr_left
        intro p hp
        exact hfs2 p (fun h => hpfrest (h ▸ hp)) (fun h => hout2 (h ▸ hp))
      obtain ⟨h1, h2, h3, h4⟩ := ih cs (k + 1) _ (acc ++ c) hacc2 hnd2 hout2 hmap2
      have hstep : mergeLoop env output k (pf :: rest) fs
          = mergeLoop env output (k + 1) rest (fsRemove (fsAppend fs output c) pf) := by
        simp [mergeLoop, hpf, hopen, hcopy, hremove, hne]
      rw [hstep]
      refine ⟨h1, ?_, ?_, ?_⟩
      · rw [h2]; simp [List.append_assoc]
      · intro p hp
        rcases List.mem_cons.mp hp with h | h
        · subst h
          rw [h4 _ hpfrest hne, fsRemove_same]
        · exact h3 p h
      · intro n hn hno
        have hn1 : n ≠ pf := fun h => hn (h ▸ List.mem_cons_self _ _)
        have hn2 : n ∉ rest := fun h => hn (List.mem_cons_of_mem _ h)
        rw [h4 n hn2 hno, hfs2 n hn1 hno]

/-- Creating the output does not change what the parts hold, when it is none of them. -/
theorem map_fsWrite_parts (fs : FS) (output : String) (data : Bytes) (parts : List String)
    (hout : output ∉ parts) : parts.map (fsWrite fs output data) = parts.map fs := by
  apply List.map_congr_left
  intro p hp
  exact fsWrite_other fs _ (fun h => hout (h ▸ hp))

/-- C4. For every list `parts` whose names all exist (with contents `contents`), are pairwise
distinct and differ from `output`, and when no I/O operation fails, `mergeParts` returns nil,
the output file then holds exactly the concatenation of the parts' contents in list order, and
every part file has been removed from the file system. -/
theorem C4_mergeParts_concatenates (env : MergeEnv) (output : String) (parts : List String)
    (contents : List Bytes) (fs : FS)
    (hexist : parts.map fs = contents.map some) (hnd : parts.Nodup) (hout : output ∉ parts)
    (hcreate : env.createErr = false) (hopen : ∀ j, env.openErr j = false)
    (hcopy : ∀ j, env.copyErr j = none) (hremove : ∀ j, env.removeErr j = false) :
    (mergeParts env output parts fs).2 = MergeOutcome.ok ∧
    (mergeParts env output parts fs).1 output = some contents.flatten ∧
    (∀ p ∈ parts, (mergeParts env output parts fs).1 p = none) := by
  have hmap : parts.map (fsWrite fs output []) = contents.map some := by
    rw [map_fsWrite_parts fs output [] parts hout, hexist]
  obtain ⟨h1, h2, h3, _⟩ := mergeLoop_ok env output hopen hcopy hremove parts contents 0
    (fsWrite fs output []) [] (fsWrite_same _ _ _) hnd hout hmap
  simp only [mergeParts, hcreate, Bool.false_eq_true, if_false]
  exact ⟨h1, by simpa using h2, h3⟩

/-- Witness of C4: two parts holding `[1, 2]` and `[3]` are merged into `song.webm`. -/
theorem C4_mergeParts_concatenates_witness :
    (mergeParts noMergeFaults "song.webm" ["part-0.tmp", "part-1.tmp"] twoPartsFS).2
      = MergeOutcome.ok ∧
    (mergeParts noMergeFaults "song.webm" ["part-0.tmp", "part-1.tmp"] twoPartsFS).1 "song.webm"
      = some [1, 2, 3] ∧
    (∀ p ∈ ["part-0.tmp", "part-1.tmp"],
      (mergeParts noMergeFaults "song.webm" ["part-0.tmp", "part-1.tmp"] twoPartsFS).1 p = none) :=
  C4_mergeParts_concatenates noMergeFaults "song.webm" ["part-0.tmp", "part-1.tmp"]
    [[1, 2], [3]] twoPartsFS (by decide) (by decide) (by decide) rfl (fun _ => rfl)
    (fun _ => rfl) (fun _ => rfl)

/-! ## `mergeParts`: a failing run -/

/-- When part `k` cannot be opened or copied, the loop ends with an error, the parts from
position `k` on are untouched, and only parts before `k` can have been removed. -/
theorem mergeLoop_fail (env : MergeEnv) (output : String) :
    ∀ (parts : List String) (i : Nat) (fs : FS) (k : Nat) (p : String),
      parts.Nodup → output ∉ parts → parts[k]? = some p →
      (fs p = none ∨ env.openErr (i + k) = true ∨ env.copyErr (i + k) ≠ none) →
      (∃ e, (mergeLoop env output i parts fs).2 = MergeOutcome.failed e) ∧
      (∀ (j : Nat) (q : String), k ≤ j → parts[j]? = some q →
        (mergeLoop env output i parts fs).1 q = fs q) ∧
      (∀ n, fs n ≠ none → (mergeLoop env output i parts fs).1 n = none →
        ∃ j, j < k ∧ parts[j]? = some n) := by
  intro parts
  induction parts with
  | nil => intro i fs k p _ _ hk; simp at hk
  | cons pf rest ih =>
    intro i fs k p hnd hout hk hfail
    have hne : pf ≠ output := fun h => hout (h ▸ List.mem_cons_self _ _)
    have hout2 : output ∉ rest := fun h => hout (List.mem_cons_of_mem _ h)
    obtain ⟨hpfrest, hnd2⟩ := List.nodup_cons.mp hnd
    have hpart_ne : ∀ (j : Nat) (q : String), (pf :: rest)[j]? = some q → q ≠ output :=
      fun j q hq h => hout (h ▸ List.getElem?_mem hq)
    cases hpf : fs pf with
    | none =>
      have hstep : mergeLoop env output i (pf :: rest) fs
          = (fs, MergeOutcome.failed (MergeError.open_ i)) := by
        simp [mergeLoop, hpf]
      rw [hstep]
      exact ⟨⟨_, rfl⟩, fun _ _ _ _ => rfl, fun n h1 h2 => absurd h2 h1⟩
    | some content =>
      by_cases hop : env.openErr i = true
      · have hstep : mergeLoop env output i (pf :: rest) fs
            = (fs, MergeOutcome.failed (MergeError.open_ i)) := by
          simp [mergeLoop, hpf, hop]
        rw [hstep]
        exact ⟨⟨_, rfl⟩, fun _ _ _ _ => rfl, fun n h1 h2 => absurd h2 h1⟩
      · cases hcp : env.copyErr i with
        | some n =>
          have hstep : mergeLoop env output i (pf :: rest) fs
              = (fsAppend fs output (content.take n),
                  MergeOutcome.failed (MergeError.copy i)) := by
            simp [mergeLoop, hpf, hop, hne, hcp]
          rw [hstep]
          refine ⟨⟨_, rfl⟩, ?_, ?_⟩
          · intro j q _ hq
            exact fsAppend_other _ _ (hpart_ne j q hq)
          · intro m h1 h2
            exact absurd ((fsAppend_eq_none_iff _ _ _ _).mp h2) h1
        | none =>
          have hstep : mergeLoop env output i (pf :: rest) fs
              = mergeLoop env output (i + 1) rest
                  (if env.removeErr i then fsAppend fs output content
                   else fsRemove (fsAppend fs output content) pf) := by
            simp [mergeLoop, hpf, hop, hne, hcp]
          have hfs2 : ∀ n, n ≠ pf → n ≠ output →
              (if env.removeErr i then fsAppend fs output content
               else fsRemove (fsAppend fs output content) pf) n = fs n := by
            intro n h1 h2
            split
            · exact fsAppend_other _ _ h2
            · rw [fsRemove_other _ h1, fsAppend_other _ _ h2]
          cases k with
          | zero =>
            simp only [List.getElem?_cons_zero, Option.some.injEq] at hk
            subst hk
            simp [hpf, hop, hcp] at hfail
          | succ k =>
            simp only [List.getElem?_cons_succ] at hk
            have hp_mem : p ∈ rest := List.getElem?_mem hk
            have hp1 : p ≠ pf := fun h => hpfrest (h ▸ hp_mem)
            have hp2 : p ≠ output := fun h => hout2 (h ▸ hp_mem)
            have hfail2 : (if env.removeErr i then fsAppend fs output content
                else fsRemove (fsAppend fs output content) pf) p = none ∨
                env.openErr (i + 1 + k) = true ∨ env.copyErr (i + 1 + k) ≠ none := by
              rw [hfs2 p hp1 hp2]
              have : i + 1 + k = i + (k + 1) := by omega
              rw [this]
              exact hfail
            obtain ⟨h1, h2, h3⟩ := ih (i + 1) _ k p hnd2 hout2 hk hfail2
            rw [hstep]
            refine ⟨h1, ?_, ?_⟩
            · intro j q hj hq
              cases j with
              | zero => omega
              | succ j =>
                simp only [List.getElem?_cons_succ] at hq
                have hq_mem : q ∈ rest := List.getElem?_mem hq
                rw [h2 j q (by omega) hq]
                exact hfs2 q (fun h => hpfrest (h ▸ hq_mem)) (fun h => hout2 (h ▸ hq_mem))
            · intro n hn1 hn2
              by_cases hmid : (if env.removeErr i then fsAppend fs output content
                  else fsRemove (fsAppend fs output content) pf) n = none
              · refine ⟨0, by omega, ?_⟩
                have hnpf : n = pf := by
                  by_contra hcon
                  by_cases hno : n = output
                  · subst hno
                    split at hmid
                    · exact hn1 ((fsAppend_eq_none_iff _ _ _ _).mp hmid)
                    · rw [fsRemove_other _ hcon] at hmid
                      exact hn1 ((fsAppend_eq_none_iff _ _ _ _).mp hmid)
                  · rw [hfs2 n hcon hno] at hmid
                    exact hn1 hmid
                simp [hnpf]
              · obtain ⟨j, hj, hjn⟩ := h3 n hmid hn2
                exact ⟨j + 1, by omega, by simpa using hjn⟩

/-- C8, amended. For every list `parts` of pairwise distinct names that all differ from
`output`, and every index `k` at which opening part `k` fails (the file is absent or
`os.Open` fails) or copying part `k` fails, `mergeParts` returns a non-nil error, every part
at list position `≥ k` is afterwards exactly as before the call (it still exists with
unchanged contents if it existed), and every file that has been removed is a part at a
position `< k`. -/
theorem C8_failure_keeps_unmerged_parts (env : MergeEnv) (output : String)
    (parts : List String) (fs : FS) (k : Nat) (p : String)
    (hnd : parts.Nodup) (hout : output ∉ parts) (hk : parts[k]? = some p)
    (hfail : fs p = none ∨ env.openErr k = true ∨ env.copyErr k ≠ none) :
    (∃ e, (mergeParts env output parts fs).2 = MergeOutcome.failed e) ∧
    (∀ (j : Nat) (q : String), k ≤ j → parts[j]? = some q →
      (mergeParts env output parts fs).1 q = fs q) ∧
    (∀ n, fs n ≠ none → (mergeParts env output parts fs).1 n = none →
      ∃ j, j < k ∧ parts[j]? = some n) := by
  by_cases hc : env.createErr = true
  · have hstep : mergeParts env output parts fs
        = (fs, MergeOutcome.failed MergeError.create) := by simp [mergeParts, hc]
    rw [hstep]
    exact ⟨⟨_, rfl⟩, fun _ _ _ _ => rfl, fun n h1 h2 => absurd h2 h1⟩
  · have hstep : mergeParts env output parts fs
        = mergeLoop env output 0 parts (fsWrite fs output []) := by simp [mergeParts, hc]
    have hp : p ≠ output := fun h => hout (h ▸ List.getElem?_mem hk)
    have hfail2 : fsWrite fs output [] p = none ∨ env.openErr (0 + k) = true ∨
        env.copyErr (0 + k) ≠ none := by
      rw [fsWrite_other fs _ hp, Nat.zero_add]
      exact hfail
    obtain ⟨h1, h2, h3⟩ := mergeLoop_fail env output parts 0 _ k p hnd hout hk hfail2
    rw [hstep]
    refine ⟨h1, ?_, ?_⟩
    · intro j q hj hq
      rw [h2 j q hj hq]
      exact fsWrite_other fs _ (fun h => hout (h ▸ List.getElem?_mem hq))
    · intro n hn1 hn2
      refine h3 n ?_ hn2
      by_cases hno : n = output
      · subst hno; simp [fsWrite]
      · rw [fsWrite_other fs _ hno]; exact hn1

/-- Witness of C8: `part-0.tmp` is absent, so the merge into `song.webm` fails at position 0
and `part-1.tmp` keeps its contents. -/
theorem C8_failure_keeps_unmerged_parts_witness :
    (∃ e, (mergeParts noMergeFaults "song.webm" ["part-0.tmp", "part-1.tmp"]
      onlySecondPartFS).2 = MergeOutcome.failed e) ∧
    (mergeParts noMergeFaults "song.webm" ["part-0.tmp", "part-1.tmp"] onlySecondPartFS).1
      "part-1.tmp" = some [7] :=
  ⟨(C8_failure_keeps_unmerged_parts noMergeFaults "song.webm" ["part-0.tmp", "part-1.tmp"]
      onlySecondPartFS 0 "part-0.tmp" (by decide) (by decide) rfl (Or.inl (by decide))).1,
   (C8_failure_keeps_unmerged_parts noMergeFaults "song.webm" ["part-0.tmp", "part-1.tmp"]
      onlySecondPartFS 0 "part-0.tmp" (by decide) (by decide) rfl (Or.inl (by decide))).2.1
      1 "part-1.tmp" (by decide) rfl⟩

/-- Counterexample to C8 as stated (no condition on `output`): with
`output = "part-1.tmp"`, `parts = ["part-0.tmp", "part-1.tmp"]` and a file system in which
only `part-1.tmp` exists, holding `[7]`, opening part 0 fails; the names are pairwise
distinct, `mergeParts` returns an error, yet `os.Create(output)` has already truncated
`part-1.tmp`, the part at position 1, to the empty file. -/
theorem C8_counterexample :
    (["part-0.tmp", "part-1.tmp"] : List String).Nodup ∧
    onlySecondPartFS "part-0.tmp" = none ∧
    onlySecondPartFS "part-1.tmp" = some [7] ∧
    (mergeParts noMergeFaults "part-1.tmp" ["part-0.tmp", "part-1.tmp"] onlySecondPartFS).2
      = MergeOutcome.failed (MergeError.open_ 0) ∧
    (mergeParts noMergeFaults "part-1.tmp" ["part-0.tmp", "part-1.tmp"] onlySecondPartFS).1
      "part-1.tmp" = some [] ∧
    ¬ (∀ (env : MergeEnv) (output : String) (parts : List String) (fs : FS) (k : Nat)
        (p : String), parts.Nodup → parts[k]? = some p →
        (fs p = none ∨ env.openErr k = true ∨ env.copyErr k ≠ none) →
        (∃ e, (mergeParts env output parts fs).2 = MergeOutcome.failed e) ∧
        (∀ (j : Nat) (q : String), k ≤ j → parts[j]? = some q → fs q ≠ none →
          (mergeParts env output parts fs).1 q = fs q)) := by
  refine ⟨by decide, by decide, by decide, by decide, by decide, ?_⟩
  intro h
  have h1 := (h noMergeFaults "part-1.tmp" ["part-0.tmp", "part-1.tmp"] onlySecondPartFS 0
    "part-0.tmp" (by decide) rfl (Or.inl (by decide))).2 1 "part-1.tmp" (by decide) rfl
    (by decide)
  revert h1
  decide

/-! ## `downloadPart` -/

/-- The five ways a call of `downloadPart` can go. -/
theorem downloadPart_cases (env : PartEnv) (url : String) (start end_ : Int)
    (filename : String) (fs : FS) :
    Cmd.downloadPart env url start end_ filename fs = (fs, [Msg.errorCreatingRequest]) ∨
    Cmd.downloadPart env url start end_ filename fs = (fs, [Msg.errorDownloadingPart]) ∨
    Cmd.downloadPart env url start end_ filename fs = (fs, [Msg.errorCreatingPartFile]) ∨
    (∃ data, Cmd.downloadPart env url start end_ filename fs
      = (fsAppend (fsWrite fs filename []) filename data, [Msg.errorWritingToPartFile])) ∨
    (∃ data, Cmd.downloadPart env url start end_ filename fs
      = (fsAppend (fsWrite fs filename []) filename data, [Msg.downloadedPart filename])) := by
  unfold Cmd.downloadPart
  by_cases h1 : env.newRequestErr = true
  · left; simp [h1]
  · right
    cases h2 : env.roundTrip { method := "GET", url := url, range := rangeHeader start end_ } with
    | none => left; simp [h1, h2]
    | some res =>
      right
      by_cases h3 : env.createErr = true
      · left; simp [h1, h2, h3]
      · right
        cases h4 : env.copyErr with
        | some n => left; exact ⟨res.body.take n, by simp [h1, h2, h3, h4]⟩
        | none => right; exact ⟨res.body, by simp [h1, h2, h3, h4]⟩

/-- A call of `downloadPart` changes no file other than its own part file. -/
theorem downloadPart_frame (env : PartEnv) (url : String) (start end_ : Int)
    (filename : String) (fs : FS) {n : String} (h : n ≠ filename) :
    (Cmd.downloadPart env url start end_ filename fs).1 n = fs n := by
  rcases downloadPart_cases env url start end_ filename fs with
    h1 | h1 | h1 | ⟨d, h1⟩ | ⟨d, h1⟩ <;> rw [h1]
  · simp only
    rw [fsAppend_other _ _ h, fsWrite_other _ _ h]
  · simp only
    rw [fsAppend_other _ _ h, fsWrite_other _ _ h]

/-- What a call leaves in its own part file depends on the file system only through the
previous state of that file. -/
theorem downloadPart_own (env : PartEnv) (url : String) (start end_ : Int)
    (filename : String) (fs fs0 : FS) (h : fs filename = fs0 filename) :
    (Cmd.downloadPart env url start end_ filename fs).1 filename
      = (Cmd.downloadPart env url start end_ filename fs0).1 filename := by
  unfold Cmd.downloadPart
  by_cases h1 : env.newRequestErr = true
  · simpa [h1] using h
  · cases h2 : env.roundTrip { method := "GET", url := url, range := rangeHeader start end_ } with
    | none => simpa [h1, h2] using h
    | some res =>
      by_cases h3 : env.createErr = true
      · simpa [h1, h2, h3] using h
      · cases h4 : env.copyErr with
        | some n =>
          simp only [h1, h2, h3, h4, if_false, Bool.false_eq_true]
          rw [fsAppend_same _ _ (fsWrite_same _ _ _), fsAppend_same _ _ (fsWrite_same _ _ _)]
        | none =>
          simp only [h1, h2, h3, h4, if_false, Bool.false_eq_true]
          rw [fsAppend_same _ _ (fsWrite_same _ _ _), fsAppend_same _ _ (fsWrite_same _ _ _)]

/-- Two calls on different part files commute, so the order in which the goroutines run
does not matter for the resulting file system. -/
theorem downloadPart_comm (e1 e2 : PartEnv) (url : String) (s1 t1 s2 t2 : Int)
    (f1 f2 : String) (fs : FS) (h : f1 ≠ f2) :
    (Cmd.downloadPart e1 url s1 t1 f1 (Cmd.downloadPart e2 url s2 t2 f2 fs).1).1
      = (Cmd.downloadPart e2 url s2 t2 f2 (Cmd.downloadPart e1 url s1 t1 f1 fs).1).1 := by
  funext n
  by_cases h1 : n = f1
  · subst h1
    rw [downloadPart_frame e2 url s2 t2 f2 _ h]
    exact downloadPart_own e1 url s1 t1 n _ _ (downloadPart_frame e2 url s2 t2 f2 fs h)
  · rw [downloadPart_frame e1 url s1 t1 f1 _ h1]
    by_cases h2 : n = f2
    · subst h2
      exact (downloadPart_own e2 url s2 t2 n _ _
        (downloadPart_frame e1 url s1 t1 f1 fs h1)).symm
    · rw [downloadPart_frame e2 url s2 t2 f2 _ h2, downloadPart_frame e2 url s2 t2 f2 _ h2,
        downloadPart_frame e1 url s1 t1 f1 _ h1]

/-- Without an I/O fault the body of the response, whatever its status code, ends up in the
part file and the success line is printed. -/
theorem downloadPart_success (env : PartEnv) (url : String) (start end_ : Int)
    (filename : String) (fs : FS) (res : Response)
    (hreq : env.newRequestErr = false) (hcreate : env.createErr = false)
    (hcopy : env.copyErr = none)
    (hdo : env.roundTrip { method := "GET", url := url, range := rangeHeader start end_ }
      = some res) :
    Cmd.downloadPart env url start end_ filename fs
      = (fsWrite fs filename res.body, [Msg.downloadedPart filename]) := by
  have hfs : fsAppend (fsWrite fs filename []) filename res.body
      = fsWrite fs filename res.body := by
    funext n
    by_cases hn : n = filename
    · subst hn
      rw [fsAppend_same _ _ (fsWrite_same _ _ _), fsWrite_same]
      rfl
    · rw [fsAppend_other _ _ hn, fsWrite_other _ _ hn, fsWrite_other _ _ hn]
  simp [Cmd.downloadPart, hreq, hcreate, hcopy, hdo, hfs]

/-- A call that fails before `os.Create` succeeds leaves the file system unchanged. -/
theorem downloadPart_early_failure (env : PartEnv) (url : String) (start end_ : Int)
    (filename : String) (fs : FS)
    (h : env.newRequestErr = true ∨
      env.roundTrip { method := "GET", url := url, range := rangeHeader start end_ } = none ∨
      env.createErr = true) :
    (Cmd.downloadPart env url start end_ filename fs).1 = fs := by
  unfold Cmd.downloadPart
  by_cases h1 : env.newRequestErr = true
  · simp [h1]
  · cases h2 : env.roundTrip { method := "GET", url := url, range := rangeHeader start end_ } with
    | none => simp [h1, h2]
    | some res =>
      by_cases h3 : env.createErr = true
      · simp [h1, h2, h3]
      · rcases h with h | h | h
        · exact absurd h h1
        · rw [h2] at h; cases h
        · exact absurd h h3

/-! ## The download loop -/

/-- The download loop changes no file that is not a part file of one of its jobs. -/
theorem downloadAll_frame (env : Nat → PartEnv) (url : String) :
    ∀ (jobs : List Job) (k : Nat) (fs : FS) (n : String), n ∉ jobs.map Job.filename →
      Cmd.downloadAll env url k jobs fs n = fs n := by
  intro jobs
  induction jobs with
  | nil => intro k fs n _; rfl
  | cons j rest ih =>
    intro k fs n hn
    simp only [List.map_cons, List.mem_cons, not_or] at hn
    simp only [Cmd.downloadAll]
    rw [ih (k + 1) _ n hn.2, downloadPart_frame _ _ _ _ _ _ hn.1]

/-- With pairwise distinct part file names, the part file of the job at position `idx` is
left as the call for that job alone would leave it. -/
theorem downloadAll_get (env : Nat → PartEnv) (url : String) :
    ∀ (jobs : List Job) (k : Nat) (fs : FS) (idx : Nat) (j : Job),
      (jobs.map Job.filename).Nodup → jobs[idx]? = some j →
      Cmd.downloadAll env url k jobs fs j.filename
        = (Cmd.downloadPart (env (k + idx)) url j.start j.end_ j.filename fs).1 j.filename := by
  intro jobs
  induction jobs with
  | nil => intro k fs idx j _ h; simp at h
  | cons j0 rest ih =>
    intro k fs idx j hnd hj
    simp only [List.map_cons, List.nodup_cons] at hnd
    simp only [Cmd.downloadAll]
    cases idx with
    | zero =>
      simp only [List.getElem?_cons_zero, Option.some.injEq] at hj
      subst hj
      rw [downloadAll_frame env url rest (k + 1) _ _ hnd.1]
      rfl
    | succ idx =>
      simp only [List.getElem?_cons_succ] at hj
      have hmem : j.filename ∈ rest.map Job.filename :=
        List.mem_map_of_mem _ (List.getElem?_mem hj)
      have hne : j.filename ≠ j0.filename := fun h => hnd.1 (h ▸ hmem)
      rw [ih (k + 1) _ idx j hnd.2 hj]
      have : k + 1 + idx = k + (idx + 1) := by omega
      rw [this]
      exact downloadPart_own _ _ _ _ _ _ _ (downloadPart_frame _ _ _ _ _ _ hne)

/-! ## Part file names -/

/-- The part file names of the eight jobs, whatever the size. -/
theorem partFiles_eq (size : Int) :
    (mainPlan size WORKERS).map Job.filename =
      ["part-0.tmp", "part-1.tmp", "part-2.tmp", "part-3.tmp", "part-4.tmp", "part-5.tmp",
        "part-6.tmp", "part-7.tmp"] := by
  rfl

theorem partFiles_nodup (size : Int) : ((mainPlan size WORKERS).map Job.filename).Nodup := by
  rw [partFiles_eq]
  decide

/-- The output name ends in `m`, every part name in `p`. -/
theorem webm_not_part (title : String) (size : Int) :
    title ++ ".webm" ∉ (mainPlan size WORKERS).map Job.filename := by
  rw [partFiles_eq]
  intro h
  have hlast : ∀ s ∈ ["part-0.tmp", "part-1.tmp", "part-2.tmp", "part-3.tmp", "part-4.tmp",
      "part-5.tmp", "part-6.tmp", "part-7.tmp"], s.data.reverse.head? = some 'p' := by decide
  have := hlast _ h
  simp at this

/-! ## Slices of a buffer along the plan -/

theorem slice_eq (b : Bytes) (s l : Nat) :
    slice b (s : Int) ((s : Int) + l - 1) = (b.drop s).take l := by
  unfold slice
  have h1 : ((s : Int)).toNat = s := by omega
  have h2 : ((s : Int) + l - 1 - s + 1).toNat = l := by omega
  rw [h1, h2]

/-- Consecutive chunks of equal length concatenate to a prefix. -/
theorem flatten_chunks {α : Type} (b : List α) (c : Nat) :
    ∀ n, ((List.range n).map (fun k => (b.drop (k * c)).take c)).flatten = b.take (n * c) := by
  intro n
  induction n with
  | zero => simp
  | succ n ih =>
    rw [List.range_succ, List.map_append, List.flatten_append, ih]
    simp only [List.map_cons, List.map_nil, List.flatten_cons, List.flatten_nil, List.append_nil]
    rw [Nat.succ_mul, List.take_add]

/-- The slices of `b` along the planned ranges, in index order, concatenate to `b`. -/
theorem plan_slices_flatten (b : Bytes) (workers : Nat) (hw : 1 ≤ workers)
    (hlen : 1 ≤ b.length) (hmax : (b.length : Int) < 2 ^ 63) :
    ((mainPlan b.length workers).map (fun j => slice b j.start j.end_)).flatten = b := by
  have hs : (0 : Int) < b.length := by omega
  have hplan : (mainPlan b.length workers).map (fun j => slice b j.start j.end_)
      = (List.range workers).map (fun k =>
          if k + 1 = workers then b.drop (k * (b.length / workers))
          else (b.drop (k * (b.length / workers))).take (b.length / workers)) := by
    apply List.ext_getElem?
    intro k
    rw [List.getElem?_map, List.getElem?_map, mainPlan_exact hs hmax k]
    by_cases hk : k < workers
    · rw [if_pos hk, List.getElem?_range hk]
      simp only [Option.map_some']
      have hstart : (k : Int) * ((b.length : Int) / workers)
          = ((k * (b.length / workers) : Nat) : Int) := by push_cast; rfl
      have hc : ((b.length : Int) / workers) = ((b.length / workers : Nat) : Int) := by
        push_cast; rfl
      by_cases hl : k + 1 = workers
      · rw [if_pos hl, if_pos hl]
        have hle : k * (b.length / workers) ≤ b.length := by
          have h1 : k * (b.length / workers) ≤ workers * (b.length / workers) :=
            Nat.mul_le_mul_right _ (by omega)
          have h2 := Nat.mul_div_le b.length workers
          omega
        have hend : (b.length : Int) - 1
            = ((k * (b.length / workers) : Nat) : Int)
              + ((b.length - k * (b.length / workers) : Nat) : Int) - 1 := by omega
        rw [hstart, hend, slice_eq, List.take_of_length_le (by simp)]
      · rw [if_neg hl, if_neg hl, hstart, hc, slice_eq]
    · rw [if_neg hk, List.getElem?_eq_none (by simpa using Nat.le_of_not_lt hk)]
      rfl
  rw [hplan]
  obtain ⟨m, rfl⟩ : ∃ m, workers = m + 1 := ⟨workers - 1, by omega⟩
  rw [List.range_succ, List.map_append, List.flatten_append]
  have hinit : (List.range m).map (fun k =>
        if k + 1 = m + 1 then b.drop (k * (b.length / (m + 1)))
        else (b.drop (k * (b.length / (m + 1)))).take (b.length / (m + 1)))
      = (List.range m).map (fun k =>
        (b.drop (k * (b.length / (m + 1)))).take (b.length / (m + 1))) := by
    apply List.map_congr_left
    intro k hk
    rw [List.mem_range] at hk
    rw [if_neg (by omega)]
  rw [hinit, flatten_chunks]
  simp

/-! ## The download-and-merge stage -/

/-- The merge loop never removes a file that is not one of the parts. -/
theorem mergeLoop_keeps (env : MergeEnv) (output : String) :
    ∀ (parts : List String) (k : Nat) (fs : FS) (n : String), n ∉ parts → fs n ≠ none →
      (mergeLoop env output k parts fs).1 n ≠ none := by
  intro parts
  induction parts with
  | nil => intro k fs n _ h; exact h
  | cons pf rest ih =>
    intro k fs n hn hfs
    have hn1 : n ≠ pf := fun h => hn (h ▸ List.mem_cons_self _ _)
    have hn2 : n ∉ rest := fun h => hn (List.mem_cons_of_mem _ h)
    cases hpf : fs pf with
    | none => simpa [mergeLoop, hpf] using hfs
    | some content =>
      by_cases hop : env.openErr k = true
      · simpa [mergeLoop, hpf, hop] using hfs
      · by_cases hself : pf = output ∧ content ≠ []
        · obtain ⟨hs1, hs2⟩ := hself
          subst hs1
          have hstep : mergeLoop env pf k (pf :: rest) fs = (fs, MergeOutcome.selfCopy) := by
            simp [mergeLoop, hpf, hop, hs2]
          rw [hstep]
          exact hfs
        · cases hcp : env.copyErr k with
          | some m =>
            have hstep : (mergeLoop env output k (pf :: rest) fs).1
                = fsAppend fs output (content.take m) := by
              simp [mergeLoop, hpf, hop, hself, hcp]
            rw [hstep]
            exact fun h => hfs ((fsAppend_eq_none_iff _ _ _ _).mp h)
          | none =>
            have hstep : mergeLoop env output k (pf :: rest) fs
                = mergeLoop env output (k + 1) rest
                    (if env.removeErr k then fsAppend fs output content
                     else fsRemove (fsAppend fs output content) pf) := by
              simp [mergeLoop, hpf, hop, hself, hcp]
            rw [hstep]
            apply ih (k + 1) _ n hn2
            split
            · exact fun h => hfs ((fsAppend_eq_none_iff _ _ _ _).mp h)
            · rw [fsRemove_other _ hn1]
              exact fun h => hfs ((fsAppend_eq_none_iff _ _ _ _).mp h)

/-- C3. Round trip: for every byte buffer `b` of length `size ≥ 1` (an `int64`), when every
request carrying `bytes=start-end` for a planned range is answered with exactly the bytes
`b[start..end]` and no I/O call of the eight `downloadPart` calls or of `mergeParts` fails,
then, from any initial file system, the stage returns nil and leaves the output file
`title + ".webm"` holding exactly `b`. -/
theorem C3_round_trip (b : Bytes) (hlen : 1 ≤ b.length) (hmax : (b.length : Int) < 2 ^ 63)
    (penv : Nat → PartEnv) (menv : MergeEnv) (audioURL title : String) (fs : FS)
    (hfetch : ∀ (idx : Nat) (j : Job), (mainPlan b.length WORKERS)[idx]? = some j →
      (penv idx).newRequestErr = false ∧ (penv idx).createErr = false ∧
      (penv idx).copyErr = none ∧
      ∃ status, (penv idx).roundTrip
        { method := "GET", url := audioURL, range := rangeHeader j.start j.end_ }
          = some { statusCode := status, body := slice b j.start j.end_ })
    (hcreate : menv.createErr = false) (hopen : ∀ k, menv.openErr k = false)
    (hcopy : ∀ k, menv.copyErr k = none) (hremove : ∀ k, menv.removeErr k = false) :
    (Cmd.mainStage penv menv audioURL title b.length fs).2 = MergeOutcome.ok ∧
    (Cmd.mainStage penv menv audioURL title b.length fs).1 (title ++ ".webm") = some b := by
  have hexist : ((mainPlan b.length WORKERS).map Job.filename).map
        (Cmd.downloadAll penv audioURL 0 (mainPlan b.length WORKERS) fs)
      = ((mainPlan b.length WORKERS).map (fun j => slice b j.start j.end_)).map some := by
    rw [List.map_map, List.map_map]
    apply List.map_congr_left
    intro j hj
    obtain ⟨idx, hidx⟩ := List.getElem?_of_mem hj
    obtain ⟨h1, h2, h3, status, h4⟩ := hfetch idx j hidx
    simp only [Function.comp]
    rw [downloadAll_get penv audioURL _ 0 fs idx j (partFiles_nodup _) hidx, Nat.zero_add,
      downloadPart_success _ _ _ _ _ _ _ h1 h2 h3 h4]
    exact fsWrite_same _ _ _
  have hnd := partFiles_nodup (b.length : Int)
  have hout := webm_not_part title (b.length : Int)
  have hmap := (map_fsWrite_parts _ (title ++ ".webm") [] _ hout).trans hexist
  obtain ⟨h1, h2, _⟩ := mergeLoop_ok menv (title ++ ".webm") hopen hcopy hremove _ _ 0
    _ [] (fsWrite_same _ _ _) hnd hout hmap
  have hw : 1 ≤ WORKERS := by decide
  have hflat := plan_slices_flatten b WORKERS hw hlen hmax
  rw [hflat, List.nil_append] at h2
  simp only [Cmd.mainStage, mergeParts, hcreate, Bool.false_eq_true, if_false]
  exact ⟨h1, h2⟩

/-- The server `rangeServer nineBytes` answers each planned request with the right slice. -/
theorem rangeServer_nineBytes (url : String) (idx : Nat) (j : Job)
    (hj : (mainPlan nineBytes.length WORKERS)[idx]? = some j) :
    rangeServer nineBytes { method := "GET", url := url, range := rangeHeader j.start j.end_ }
      = some { statusCode := 206, body := slice nineBytes j.start j.end_ } := by
  have hidx : idx < 8 := by
    by_contra h
    rw [mainPlan_getElem?, if_neg (show ¬ idx < WORKERS from h)] at hj
    cases hj
  simp only [rangeServer]
  interval_cases idx <;> (simp only [mainPlan_getElem?] at hj; cases hj; decide)

/-- Witness of C3: nine bytes served by `rangeServer`, starting from the empty file system. -/
theorem C3_round_trip_witness :
    (Cmd.mainStage (fun _ => okPart nineBytes) noMergeFaults "u" "song" nineBytes.length
      emptyFS).2 = MergeOutcome.ok ∧
    (Cmd.mainStage (fun _ => okPart nineBytes) noMergeFaults "u" "song" nineBytes.length
      emptyFS).1 ("song" ++ ".webm") = some nineBytes :=
  C3_round_trip nineBytes (by decide) (by decide) (fun _ => okPart nineBytes) noMergeFaults
    "u" "song" emptyFS
    (fun idx j hj => ⟨rfl, rfl, rfl, 206, rangeServer_nineBytes "u" idx j hj⟩)
    rfl (fun _ => rfl) (fun _ => rfl) (fun _ => rfl)

/-- C5, amended. `mergeParts` runs after the join whatever the fetches did. (a) Whenever
`os.Create` of the output succeeds, the output `.webm` file exists in the resulting file
system, also when a `downloadPart` failed. (b) When a `downloadPart` failed before creating
its part file (request error, transport error or part-file creation error) and that part
file did not exist beforehand, the stage ends in failure: `mergeParts` returns a non-nil
error. -/
theorem C5_output_created_despite_failed_fetch (penv : Nat → PartEnv) (menv : MergeEnv)
    (audioURL title : String) (size : Int) (fs : FS) :
    (menv.createErr = false →
      (Cmd.mainStage penv menv audioURL title size fs).1 (title ++ ".webm") ≠ none) ∧
    (∀ (idx : Nat) (j : Job), (mainPlan size WORKERS)[idx]? = some j →
      ((penv idx).newRequestErr = true ∨
        (penv idx).roundTrip
          { method := "GET", url := audioURL, range := rangeHeader j.start j.end_ } = none ∨
        (penv idx).createErr = true) →
      fs j.filename = none →
      ∃ e, (Cmd.mainStage penv menv audioURL title size fs).2 = MergeOutcome.failed e) := by
  constructor
  · intro hcreate
    have hstep : Cmd.mainStage penv menv audioURL title size fs
        = mergeLoop menv (title ++ ".webm") 0 ((mainPlan size WORKERS).map Job.filename)
            (fsWrite (Cmd.downloadAll penv audioURL 0 (mainPlan size WORKERS) fs)
              (title ++ ".webm") []) := by
      simp [Cmd.mainStage, mergeParts, hcreate]
    rw [hstep]
    apply mergeLoop_keeps _ _ _ _ _ _ (webm_not_part title size)
    rw [fsWrite_same]
    exact Option.some_ne_none _
  · intro idx j hj hfail hfs
    have hpart : ((mainPlan size WORKERS).map Job.filename)[idx]? = some j.filename := by
      rw [List.getElem?_map, hj]; rfl
    have hmissing : Cmd.downloadAll penv audioURL 0 (mainPlan size WORKERS) fs j.filename
        = none := by
      rw [downloadAll_get penv audioURL _ 0 fs idx j (partFiles_nodup _) hj, Nat.zero_add,
        downloadPart_early_failure _ _ _ _ _ _ hfail]
      exact hfs
    by_cases hc : menv.createErr = true
    · exact ⟨MergeError.create, by simp [Cmd.mainStage, mergeParts, hc]⟩
    · have hne : j.filename ≠ title ++ ".webm" := fun h =>
        webm_not_part title size (h ▸ List.getElem?_mem hpart)
      have hstep : Cmd.mainStage penv menv audioURL title size fs
          = mergeLoop menv (title ++ ".webm") 0 ((mainPlan size WORKERS).map Job.filename)
              (fsWrite (Cmd.downloadAll penv audioURL 0 (mainPlan size WORKERS) fs)
                (title ++ ".webm") []) := by
        simp [Cmd.mainStage, mergeParts, hc]
      rw [hstep]
      refine (mergeLoop_fail menv (title ++ ".webm") _ 0 _ idx j.filename (partFiles_nodup _)
        (webm_not_part title size) hpart (Or.inl ?_)).1
      rw [fsWrite_other _ _ hne]
      exact hmissing

/-- Witness of C5: the request of index 3 ends in a transport error; the stage fails and
`song.webm` exists. -/
theorem C5_output_created_despite_failed_fetch_witness :
    (Cmd.mainStage (transportErrorAt3 nineBytes) noMergeFaults "u" "song" 9 emptyFS).1
      ("song" ++ ".webm") ≠ none ∧
    (∃ e, (Cmd.mainStage (transportErrorAt3 nineBytes) noMergeFaults "u" "song" 9 emptyFS).2
      = MergeOutcome.failed e) :=
  ⟨(C5_output_created_despite_failed_fetch (transportErrorAt3 nineBytes) noMergeFaults "u"
      "song" 9 emptyFS).1 rfl,
   (C5_output_created_despite_failed_fetch (transportErrorAt3 nineBytes) noMergeFaults "u"
      "song" 9 emptyFS).2 3 { start := 3, end_ := 3, filename := "part-3.tmp" } (by decide)
      (Or.inr (Or.inl rfl)) rfl⟩

/-- Counterexample to C5 as stated, on the nine-byte buffer served by `rangeServer`, from
the empty file system. Run A: the request of index 3 ends in a transport error; the stage
fails at opening `part-3.tmp`, but `song.webm` exists and holds the first three parts.
Run B: the copy of index 3 fails before the first byte; `downloadPart` prints its error, yet
the stage returns nil and `song.webm` exists without the bytes of part 3. -/
theorem C5_counterexample :
    ((Cmd.downloadPart (transportErrorAt3 nineBytes 3) "u" 3 3 "part-3.tmp" emptyFS).2
        = [Msg.errorDownloadingPart] ∧
      (Cmd.mainStage (transportErrorAt3 nineBytes) noMergeFaults "u" "song" 9 emptyFS).2
        = MergeOutcome.failed (MergeError.open_ 3) ∧
      (Cmd.mainStage (transportErrorAt3 nineBytes) noMergeFaults "u" "song" 9 emptyFS).1
        "song.webm" = some [10, 11, 12]) ∧
    ((Cmd.downloadPart (copyErrorAt3 nineBytes 3) "u" 3 3 "part-3.tmp" emptyFS).2
        = [Msg.errorWritingToPartFile] ∧
      (Cmd.mainStage (copyErrorAt3 nineBytes) noMergeFaults "u" "song" 9 emptyFS).2
        = MergeOutcome.ok ∧
      (Cmd.mainStage (copyErrorAt3 nineBytes) noMergeFaults "u" "song" 9 emptyFS).1
        "song.webm" = some [10, 11, 12, 14, 15, 16, 17, 18]) ∧
    ¬ (∀ (penv : Nat → PartEnv) (menv : MergeEnv) (audioURL title : String) (size : Int)
        (fs : FS),
        (∃ (idx : Nat) (j : Job), (mainPlan size WORKERS)[idx]? = some j ∧
          (Cmd.downloadPart (penv idx) audioURL j.start j.end_ j.filename fs).2
            ≠ [Msg.downloadedPart j.filename]) →
        (Cmd.mainStage penv menv audioURL title size fs).2 ≠ MergeOutcome.ok ∧
        (Cmd.mainStage penv menv audioURL title size fs).1 (title ++ ".webm") = none) := by
  refine ⟨⟨by decide, by decide, by decide⟩, ⟨by decide, by decide, by decide⟩, ?_⟩
  intro h
  have h1 := (h (copyErrorAt3 nineBytes) noMergeFaults "u" "song" 9 emptyFS
    ⟨3, { start := 3, end_ := 3, filename := "part-3.tmp" }, by decide, by decide⟩).1
  revert h1
  decide

/-! ## `getFileSize` -/

/-- In `src/cmd/main.go` a nil error comes with a positive size, and a response whose
content length is absent (`-1`) or not positive is rejected. -/
theorem cmd_getFileSize_guard (head : Option HeadResponse) :
    ((Cmd.getFileSize head).2 = none → 0 < (Cmd.getFileSize head).1) ∧
    (∀ res, head = some res → res.contentLength ≤ 0 → (Cmd.getFileSize head).2 ≠ none) := by
  constructor
  · intro h
    cases head with
    | none => simp [Cmd.getFileSize] at h
    | some res =>
      by_cases h1 : res.statusCode = 200
      · by_cases h2 : res.contentLength ≤ 0
        · simp [Cmd.getFileSize, h1, h2] at h
        · simp only [Cmd.getFileSize, h1, h2, ne_eq, not_true_eq_false, if_false]
          omega
      · simp [Cmd.getFileSize, h1] at h
  · intro res hres hlen
    subst hres
    by_cases h1 : res.statusCode = 200
    · simp [Cmd.getFileSize, h1, hlen]
    · simp [Cmd.getFileSize, h1]

/-- C6, failing input. A HEAD response with status 200 and header `Content-Length: 0`:
`getFileSize` of `src/cmd/main.go` rejects it, but `getFileSize` of `src/main.go` returns
size 0 with a nil error, and the planning loop then runs with `size = 0`, giving eight
ranges `(0, -1)`. A response without the header is rejected by both. -/
theorem C6_root_getFileSize_accepts_zero :
    Cmd.getFileSize (some { statusCode := 200, contentLength := 0, contentLengthHeader := "0" })
      = (0, some (SizeError.invalidLength 0)) ∧
    Root.getFileSize (some { statusCode := 200, contentLength := 0, contentLengthHeader := "0" })
      = (0, none) ∧
    (mainPlan 0 WORKERS).map Job.range =
      [(0, -1), (0, -1), (0, -1), (0, -1), (0, -1), (0, -1), (0, -1), (0, -1)] ∧
    Cmd.getFileSize (some { statusCode := 200, contentLength := -1, contentLengthHeader := "" })
      = (0, some (SizeError.invalidLength (-1))) ∧
    Root.getFileSize (some { statusCode := 200, contentLength := -1, contentLengthHeader := "" })
      = (0, some (SizeError.parse NumError.syn)) := by
  refine ⟨by decide, by decide, by decide, by decide, by decide⟩

/-! ## `downloadPart` and the status code -/

/-- C7, failing input. `downloadPart` never reads the status code: a response of any status
with body `res.body`, met without I/O fault, is written to the part file and the success
line is printed. For a 404 response with body `[52, 48, 52]` requested for range 375-499
into `part-3.tmp`, the part file holds the three bytes of the error body and the only line
printed is the success line. -/
theorem C7_downloadPart_ignores_status :
    (∀ (res : Response) (url : String) (start end_ : Int) (filename : String) (fs : FS),
      Cmd.downloadPart (respondWith res) url start end_ filename fs
        = (fsWrite fs filename res.body, [Msg.downloadedPart filename])) ∧
    (Cmd.downloadPart (respondWith { statusCode := 404, body := [52, 48, 52] }) "u" 375 499
        "part-3.tmp" emptyFS).1 "part-3.tmp" = some [52, 48, 52] ∧
    (Cmd.downloadPart (respondWith { statusCode := 404, body := [52, 48, 52] }) "u" 375 499
        "part-3.tmp" emptyFS).2 = [Msg.downloadedPart "part-3.tmp"] := by
  refine ⟨?_, by decide, by decide⟩
  intro res url start end_ filename fs
  exact downloadPart_success (respondWith res) url start end_ filename fs res rfl rfl rfl rfl

end Mp3Downloader
